import Mathlib

/-!
Verification of `scripts/create-extension-icons.py`: a PNG icon generator
consisting of a pure PNG encoder (`create_png` with helper `png_chunk`),
a rasterizer (`draw_q_icon`), and a driver (`main`) that writes three files.

Shallow embedding conventions:
* Byte strings are `List ℕ` whose elements are byte values.
* `struct.pack` of big-endian 32-bit words is `packBE32` (Python raises for
  values ≥ 2^32; theorems carry `< 2^32` hypotheses marking that boundary).
* `zlib.crc32` is the standard CRC-32 algorithm, implemented here directly
  (`crc32`); the source masks its result with `& 0xffffffff`.
* `zlib.compress(·, 9)` is an external library function; `create_png` takes
  it as an explicit parameter `compress`, and round-trip theorems assume the
  zlib contract (inflate is a left inverse of compress) only at the point of
  use, so any concrete left-invertible pair instantiates them.
* The rasterizer's float arithmetic is embedded exactly over ℚ.  Every
  comparison in the source compares nonnegative quantities (distances and
  radii), so `math.sqrt` is eliminated by comparing squares: for a, b ≥ 0,
  a < b ↔ a² < b².  The two divisions by √2 in the tail test are likewise
  cleared by squaring.
-/

/-- Big-endian 4-byte encoding of a 32-bit word, `struct.pack('>I', n)`
(faithful for `n < 2^32`; Python raises beyond that). -/
def packBE32 (n : ℕ) : List ℕ :=
  [n / 2 ^ 24 % 256, n / 2 ^ 16 % 256, n / 2 ^ 8 % 256, n % 256]

/-- Big-endian reading of a byte list as a number (used by the decoder side). -/
def readBE32 (l : List ℕ) : ℕ :=
  l.foldl (fun a b => a * 256 + b) 0

/-- The reflected CRC-32 polynomial used by zlib. -/
def crcPoly : ℕ := 0xEDB88320

/-- One bit step of CRC-32: shift right, conditionally xor the polynomial. -/
def crcStep (c : ℕ) : ℕ :=
  if c % 2 = 1 then (c / 2) ^^^ crcPoly else c / 2

/-- Fold one byte into the CRC state (eight bit steps after xor-ing the byte in). -/
def crcByte (c b : ℕ) : ℕ :=
  crcStep^[8] (c ^^^ b)

/-- CRC-32 of a byte list: the standard algorithm computed by `zlib.crc32`
(initial value `0xFFFFFFFF`, final xor `0xFFFFFFFF`). -/
def crc32 (data : List ℕ) : ℕ :=
  (data.foldl crcByte 0xFFFFFFFF) ^^^ 0xFFFFFFFF

/-- `png_chunk(chunk_type, data)` from the source:
`struct.pack('>I', len(data)) + chunk + struct.pack('>I', zlib.crc32(chunk) & 0xffffffff)`
where `chunk = chunk_type + data`. -/
def png_chunk (chunk_type data : List ℕ) : List ℕ :=
  packBE32 data.length ++ (chunk_type ++ data) ++
    packBE32 (crc32 (chunk_type ++ data) &&& 0xffffffff)

/-- The 8-byte PNG signature `b'\x89PNG\r\n\x1a\n'`. -/
def pngSignature : List ℕ := [0x89, 0x50, 0x4E, 0x47, 0x0D, 0x0A, 0x1A, 0x0A]

/-- ASCII bytes of the chunk tag `b'IHDR'`. -/
def IHDRtag : List ℕ := [0x49, 0x48, 0x44, 0x52]

/-- ASCII bytes of the chunk tag `b'IDAT'`. -/
def IDATtag : List ℕ := [0x49, 0x44, 0x41, 0x54]

/-- ASCII bytes of the chunk tag `b'IEND'`. -/
def IENDtag : List ℕ := [0x49, 0x45, 0x4E, 0x44]

/-- `struct.pack('>IIBBBBB', width, height, 8, 6, 0, 0, 0)`: the IHDR payload. -/
def ihdr_data (width height : ℕ) : List ℕ :=
  packBE32 width ++ packBE32 height ++ [8, 6, 0, 0, 0]

/-- The bytes appended for row `y`:
`for x in range(width): raw_data += bytes(pixels[idx:idx+4])` with
`idx = (y * width + x) * 4`. -/
def rowBytes (width : ℕ) (pixels : List ℕ) (y : ℕ) : List ℕ :=
  (List.range width).flatMap (fun x => (pixels.drop ((y * width + x) * 4)).take 4)

/-- The scanline stream built by `create_png`: for each row a zero filter-type
byte followed by that row's pixel bytes. -/
def rawData (width height : ℕ) (pixels : List ℕ) : List ℕ :=
  (List.range height).flatMap (fun y => 0 :: rowBytes width pixels y)

/-- Modelled from the spec's words (C4): the scanline data described as, for
each row `y` in order, one zero filter-type byte followed by that row's
`4 * width` packed RGBA bytes taken row-major from the buffer. -/
def rawDataSpec (width height : ℕ) (pixels : List ℕ) : List ℕ :=
  (List.range height).flatMap
    (fun y => 0 :: (pixels.drop (4 * width * y)).take (4 * width))

/-- `create_png(width, height, pixels)` from the source, with `zlib.compress(·, 9)`
abstracted as the parameter `compress`:
signature, IHDR chunk, one IDAT chunk holding the compressed scanlines, IEND chunk. -/
def create_png (compress : List ℕ → List ℕ) (width height : ℕ) (pixels : List ℕ) :
    List ℕ :=
  pngSignature ++ png_chunk IHDRtag (ihdr_data width height) ++
    png_chunk IDATtag (compress (rawData width height pixels)) ++ png_chunk IENDtag []

/-- Generic PNG chunk-stream reader (decoder side, independent of the encoder):
repeatedly read a 4-byte big-endian length, a 4-byte type tag, the payload and
the 4-byte checksum, returning the list of (tag, payload) pairs, or `none` if
the stream is not well framed. -/
def parseChunks (d : List ℕ) : Option (List (List ℕ × List ℕ)) :=
  if hnil : d = [] then some []
  else
    if h12 : 12 + readBE32 (d.take 4) ≤ d.length then
      match parseChunks (d.drop (12 + readBE32 (d.take 4))) with
      | some rest =>
          some (((d.drop 4).take 4, (d.drop 8).take (readBE32 (d.take 4))) :: rest)
      | none => none
    else none
termination_by d.length
decreasing_by
  simp only [List.length_drop]
  have : d.length ≠ 0 := fun h => hnil (List.eq_nil_of_length_eq_zero h)
  omega

/-- Strip one leading filter byte per row of the inflated scanline stream and
concatenate the row bytes (the decoder-side description of un-filtering). -/
def stripRows (width height : ℕ) (raw : List ℕ) : List ℕ :=
  (List.range height).flatMap
    (fun y => (((raw.drop (y * (1 + 4 * width))).take (1 + 4 * width)).drop 1))

/-- Modelled from the spec: a standard PNG decoder for the image data, written
from the claim's decoding description and the PNG format, independently of the
encoder.  It checks the signature, parses the chunk stream, reads width and
height from the IHDR payload, inflates the IDAT payload with the supplied
`inflate`, strips the one filter byte per row and concatenates the rows. -/
def decodePNG (inflate : List ℕ → List ℕ) (png : List ℕ) : Option (List ℕ) :=
  if png.take 8 = pngSignature then
    match parseChunks (png.drop 8) with
    | some chunks =>
        match chunks.find? (fun c => c.1 = IHDRtag), chunks.find? (fun c => c.1 = IDATtag) with
        | some ihdr, some idat =>
            some (stripRows (readBE32 (ihdr.2.take 4)) (readBE32 ((ihdr.2.drop 4).take 4))
              (inflate idat.2))
        | _, _ => none
    | none => none
  else none

/-! ## The rasterizer `draw_q_icon`

Locals of the Python function become definitions parameterised by `size`.
Floats are embedded as exact rationals; `math.sqrt` comparisons are replaced
by comparisons of squares of the (nonnegative) operands. -/

/-- `transparent = [0, 0, 0, 0]`. -/
def transparent : List ℕ := [0, 0, 0, 0]

/-- `blue = [13, 110, 253, 255]`, the `#0d6efd` fill. -/
def blue : List ℕ := [13, 110, 253, 255]

/-- `white = [255, 255, 255, 255]`. -/
def white : List ℕ := [255, 255, 255, 255]

/-- `center = size / 2`. -/
def center (size : ℕ) : ℚ := size / 2

/-- `circle_radius = size * 0.48`. -/
def circle_radius (size : ℕ) : ℚ := size * (48 / 100)

/-- `q_scale = size / 100.0`. -/
def q_scale (size : ℕ) : ℚ := size / 100

/-- `font_size = 60 * q_scale`. -/
def font_size (size : ℕ) : ℚ := 60 * q_scale size

/-- `stroke_width = font_size * 0.15`. -/
def stroke_width (size : ℕ) : ℚ := font_size size * (15 / 100)

/-- `q_outer_radius = font_size * 0.38`. -/
def q_outer_radius (size : ℕ) : ℚ := font_size size * (38 / 100)

/-- `q_inner_radius = q_outer_radius - stroke_width`. -/
def q_inner_radius (size : ℕ) : ℚ := q_outer_radius size - stroke_width size

/-- `tail_length = font_size * 0.35`. -/
def tail_length (size : ℕ) : ℚ := font_size size * (35 / 100)

/-- `tail_width = stroke_width * 1.2`. -/
def tail_width (size : ℕ) : ℚ := stroke_width size * (12 / 10)

/-- The sampling offset of a coordinate: `t - center + 0.5`
(the source's `dx`/`dy` for `t` the pixel's x or y coordinate). -/
def doff (size t : ℕ) : ℚ := t - center size + 1 / 2

/-- The squared sampled distance from the center,
`dist * dist` for `dist = math.sqrt(dx*dx + dy*dy)`. -/
def dist_sq (size x y : ℕ) : ℚ := doff size x * doff size x + doff size y * doff size y

/-- `tail_start_x = tail_start_y = center + q_inner_radius * 0.5`. -/
def tail_start (size : ℕ) : ℚ := center size + q_inner_radius size * (1 / 2)

/-- `rel_x` / `rel_y`: coordinate relative to the tail start,
`t - tail_start + 0.5`. -/
def rel (size t : ℕ) : ℚ := t - tail_start size + 1 / 2

/-- The source's ring test `q_inner_radius < dist < q_outer_radius`,
with both comparisons of nonnegative quantities squared. -/
def onRing (size x y : ℕ) : Prop :=
  q_inner_radius size * q_inner_radius size < dist_sq size x y ∧
    dist_sq size x y < q_outer_radius size * q_outer_radius size

/-- The source's tail test: `rel_x >= 0 and rel_y >= 0` and
`diag_dist < tail_length and perp_dist < tail_width / 2`, where
`diag_dist = (rel_x + rel_y) / sqrt(2)` and `perp_dist = |rel_x - rel_y| / sqrt(2)`;
the two inequalities are squared (both sides nonnegative), clearing the √2. -/
def onTail (size x y : ℕ) : Prop :=
  0 ≤ rel size x ∧ 0 ≤ rel size y ∧
    (rel size x + rel size y) * (rel size x + rel size y) <
      2 * (tail_length size * tail_length size) ∧
    2 * ((rel size x - rel size y) * (rel size x - rel size y)) <
      tail_width size * tail_width size

instance (size x y : ℕ) : Decidable (onRing size x y) := by
  unfold onRing; infer_instance

instance (size x y : ℕ) : Decidable (onTail size x y) := by
  unfold onTail; infer_instance

/-- The loop body of `draw_q_icon`: the color assigned to pixel `(x, y)`.
Default `transparent`; inside the disk (`dist <= circle_radius`, squared) the
color is `blue` unless the pixel is on the Q ring or the Q tail, where it is
`white`. -/
def pixelColor (size x y : ℕ) : List ℕ :=
  if dist_sq size x y ≤ circle_radius size * circle_radius size then
    if onRing size x y ∨ onTail size x y then white else blue
  else transparent

/-- `draw_q_icon(size)`: the flat RGBA buffer, rows top to bottom, pixels left
to right, four channel values appended per pixel (`pixels.extend(color)`). -/
def draw_q_icon (size : ℕ) : List ℕ :=
  (List.range size).flatMap (fun y => (List.range size).flatMap (fun x => pixelColor size x y))

/-- The sizes generated by `main`: `sizes = [16, 48, 128]`. -/
def sizes : List ℕ := [16, 48, 128]

/-- The fixed output directory of `main`, relative to the project root:
`os.path.join(project_root, 'cmd', 'quaero-chrome-extension', 'icons')`. -/
def icons_dir : String := "cmd/quaero-chrome-extension/icons"

/-- The filesystem effect of `main`, modelled as the list of (path, bytes)
writes it performs, in order: for each size `N` in `sizes` it writes
`create_png(N, N, draw_q_icon(N))` to `icons_dir/iconN.png`. -/
def mainWrites (compress : List ℕ → List ℕ) : List (String × List ℕ) :=
  sizes.map (fun s => (icons_dir ++ "/icon" ++ toString s ++ ".png",
    create_png compress s s (draw_q_icon s)))

/-! ## Helper lemmas about the encoder -/

theorem packBE32_length (n : ℕ) : (packBE32 n).length = 4 := rfl

theorem readBE32_packBE32 (n : ℕ) (h : n < 2 ^ 32) : readBE32 (packBE32 n) = n := by
  simp only [readBE32, packBE32, List.foldl]
  omega

theorem png_chunk_def (t d : List ℕ) :
    png_chunk t d =
      packBE32 d.length ++ (t ++ (d ++ packBE32 (crc32 (t ++ d) &&& 0xffffffff))) := by
  simp [png_chunk]

theorem png_chunk_length (t d : List ℕ) (ht : t.length = 4) :
    (png_chunk t d).length = 12 + d.length := by
  simp [png_chunk, packBE32_length, ht]
  omega

theorem parseChunks_nil : parseChunks [] = some [] := by
  rw [parseChunks]
  simp

theorem parseChunks_chunk (t d rest : List ℕ) (ht : t.length = 4)
    (hd : d.length < 2 ^ 32) :
    parseChunks (png_chunk t d ++ rest) =
      (parseChunks rest).map (fun r => (t, d) :: r) := by
  have hne : png_chunk t d ++ rest ≠ [] := by
    intro h
    have := congrArg List.length h
    simp [png_chunk_length t d ht] at this
  have htake4 : (png_chunk t d ++ rest).take 4 = packBE32 d.length := by
    rw [png_chunk_def, List.append_assoc]
    exact List.take_left' (packBE32_length d.length)
  have hread : readBE32 ((png_chunk t d ++ rest).take 4) = d.length := by
    rw [htake4, readBE32_packBE32 _ hd]
  have hdrop4 : (png_chunk t d ++ rest).drop 4 =
      t ++ (d ++ packBE32 (crc32 (t ++ d) &&& 0xffffffff)) ++ rest := by
    rw [png_chunk_def, List.append_assoc, List.drop_left' (packBE32_length d.length),
      List.append_assoc]
  have htag : ((png_chunk t d ++ rest).drop 4).take 4 = t := by
    rw [hdrop4, List.append_assoc, List.append_assoc]
    exact List.take_left' ht
  have hdrop8 : (png_chunk t d ++ rest).drop 8 =
      d ++ (packBE32 (crc32 (t ++ d) &&& 0xffffffff) ++ rest) := by
    have : (8 : ℕ) = 4 + 4 := rfl
    rw [this, ← List.drop_drop, hdrop4, List.append_assoc, List.append_assoc,
      List.drop_left' ht]
  have hpayload : ((png_chunk t d ++ rest).drop 8).take d.length = d := by
    rw [hdrop8]
    exact List.take_left' rfl
  have hdroprest : (png_chunk t d ++ rest).drop (12 + d.length) = rest := by
    exact List.drop_left' (png_chunk_length t d ht)
  have hlen : 12 + d.length ≤ (png_chunk t d ++ rest).length := by
    simp [List.length_append, png_chunk_length t d ht]
  rw [parseChunks]
  rw [dif_neg hne]
  rw [hread]
  rw [dif_pos hlen]
  rw [hdroprest, htag, hpayload]
  cases parseChunks rest <;> simp

/-- Consecutive `take k` slices at stride `k` concatenate to one contiguous slice. -/
theorem slices_concat {α : Type} (p : List α) (k : ℕ) :
    ∀ (n off : ℕ),
      (List.range n).flatMap (fun x => (p.drop (off + x * k)).take k) =
        (p.drop off).take (n * k) := by
  intro n
  induction n with
  | zero => intro off; simp
  | succ m ih =>
      intro off
      rw [List.range_succ_eq_map, List.flatMap_cons]
      have hmap : (List.map Nat.succ (List.range m)).flatMap
          (fun x => (p.drop (off + x * k)).take k) =
          (List.range m).flatMap (fun x => (p.drop ((off + k) + x * k)).take k) := by
        rw [List.flatMap_map]
        apply List.flatMap_congr
        intro x _
        have : off + (x + 1) * k = off + k + x * k := by ring
        simp [Nat.succ_eq_add_one, this]
      rw [hmap, ih (off + k)]
      have : Nat.succ m * k = k + m * k := by rw [Nat.succ_eq_add_one]; ring
      rw [this, List.take_add, List.drop_drop]
      simp [Nat.mul_zero, Nat.add_zero]

/-- The per-pixel slices of a row concatenate to the contiguous row slice,
with no assumption on the buffer length. -/
theorem rowBytes_eq (width : ℕ) (pixels : List ℕ) (y : ℕ) :
    rowBytes width pixels y = (pixels.drop (y * width * 4)).take (width * 4) := by
  unfold rowBytes
  have hfun : (fun x => (pixels.drop ((y * width + x) * 4)).take 4) =
      (fun x => (pixels.drop (y * width * 4 + x * 4)).take 4) := by
    funext x
    have : (y * width + x) * 4 = y * width * 4 + x * 4 := by ring
    rw [this]
  rw [hfun, slices_concat pixels 4 width (y * width * 4)]

/-- Length of the scanline stream: one filter byte per row plus the pixel
bytes actually available (short buffers simply yield fewer bytes). -/
theorem rawData_length (width height : ℕ) (pixels : List ℕ) :
    (rawData width height pixels).length =
      height + min (4 * width * height) pixels.length := by
  unfold rawData
  induction height with
  | zero => simp
  | succ m ih =>
      rw [List.range_succ, List.flatMap_append, List.length_append, ih]
      simp only [List.flatMap_cons, List.flatMap_nil, List.append_nil, List.length_cons,
        rowBytes_eq, List.length_take, List.length_drop]
      have h1 : m * width * 4 = 4 * width * m := by ring
      have h2 : 4 * width * Nat.succ m = 4 * width * m + 4 * width := by
        rw [Nat.succ_eq_add_one]; ring
      have h3 : width * 4 = 4 * width := by ring
      rw [h1, h2, h3]
      omega

/-- Dropping a multiple of the uniform block length drops whole blocks. -/
theorem flatten_drop_uniform {α : Type} (l : List (List α)) (k : ℕ)
    (h : ∀ b ∈ l, b.length = k) :
    ∀ i : ℕ, l.flatten.drop (k * i) = (l.drop i).flatten := by
  induction l with
  | nil => intro i; simp
  | cons b l' ih =>
      intro i
      cases i with
      | zero => simp
      | succ j =>
          have hk : k * (j + 1) = k + k * j := by ring
          rw [List.flatten_cons, hk, ← List.drop_drop,
            List.drop_left' (h b (List.mem_cons_self b l')), List.drop_succ_cons]
          exact ih (fun b hb => h b (List.mem_cons_of_mem _ hb)) j

/-- Extracting one block from a flattened list of uniform-length blocks. -/
theorem flatten_block {α : Type} (l : List (List α)) (k : ℕ)
    (h : ∀ b ∈ l, b.length = k) (i : ℕ) (hi : i < l.length) :
    (l.flatten.drop (k * i)).take k = l[i] := by
  rw [flatten_drop_uniform l k h i, List.drop_eq_getElem_cons hi, List.flatten_cons]
  exact List.take_left' (h _ (List.getElem_mem hi))

theorem ihdr_data_length (width height : ℕ) : (ihdr_data width height).length = 13 := rfl

/-- With a full-length buffer, every scanline block of `rawData` has the
uniform length `1 + 4 * width`. -/
theorem rawData_block (width height : ℕ) (pixels : List ℕ)
    (hp : pixels.length = 4 * width * height) (y : ℕ) (hy : y < height) :
    ((rawData width height pixels).drop ((1 + 4 * width) * y)).take (1 + 4 * width) =
      0 :: rowBytes width pixels y := by
  have hform : rawData width height pixels =
      ((List.range height).map (fun y => 0 :: rowBytes width pixels y)).flatten := by
    rw [rawData, List.flatMap_def]
  rw [hform]
  have huni : ∀ b ∈ (List.range height).map (fun y => 0 :: rowBytes width pixels y),
      b.length = 1 + 4 * width := by
    intro b hb
    simp only [List.mem_map, List.mem_range] at hb
    obtain ⟨y', hy', rfl⟩ := hb
    simp only [List.length_cons, rowBytes_eq, List.length_take, List.length_drop, hp]
    have e1 : 4 * width * height = width * 4 * height := by ring
    have e2 : y' * width * 4 = width * 4 * y' := by ring
    have e3 : 4 * width = width * 4 := by ring
    have hle : width * 4 * (y' + 1) ≤ width * 4 * height :=
      Nat.mul_le_mul_left _ (Nat.succ_le_of_lt hy')
    have e4 : width * 4 * (y' + 1) = width * 4 * y' + width * 4 := by ring
    rw [e1, e2, e3]
    omega
  have hlen : y < ((List.range height).map (fun y => 0 :: rowBytes width pixels y)).length := by
    simpa using hy
  rw [flatten_block _ _ huni y hlen]
  simp

/-- Un-filtering inverts scanline construction on a full-length buffer. -/
theorem stripRows_rawData (width height : ℕ) (pixels : List ℕ)
    (hp : pixels.length = 4 * width * height) :
    stripRows width height (rawData width height pixels) = pixels := by
  unfold stripRows
  have hcong : ∀ y ∈ List.range height,
      (((rawData width height pixels).drop (y * (1 + 4 * width))).take (1 + 4 * width)).drop 1 =
        (pixels.drop (0 + y * (width * 4))).take (width * 4) := by
    intro y hy
    rw [mul_comm y (1 + 4 * width), rawData_block width height pixels hp y (List.mem_range.mp hy)]
    simp only [List.drop_succ_cons, List.drop_zero, rowBytes_eq]
    have : y * width * 4 = 0 + y * (width * 4) := by ring
    rw [this]
  rw [List.flatMap_congr hcong, slices_concat pixels (width * 4) height 0, List.drop_zero]
  have : pixels.length ≤ height * (width * 4) := by
    rw [hp]; have : 4 * width * height = height * (width * 4) := by ring
    omega
  exact List.take_of_length_le this

theorem create_png_take8 (compress : List ℕ → List ℕ) (width height : ℕ)
    (pixels : List ℕ) :
    (create_png compress width height pixels).take 8 = pngSignature := by
  unfold create_png
  rw [List.append_assoc, List.append_assoc]
  exact List.take_left' rfl

/-- Parsing the chunk stream of `create_png` output recovers the three chunks. -/
theorem parseChunks_create_png (compress : List ℕ → List ℕ) (width height : ℕ)
    (pixels : List ℕ)
    (hc : (compress (rawData width height pixels)).length < 2 ^ 32) :
    parseChunks ((create_png compress width height pixels).drop 8) =
      some [(IHDRtag, ihdr_data width height),
        (IDATtag, compress (rawData width height pixels)), (IENDtag, [])] := by
  unfold create_png
  have h8 : pngSignature.length = 8 := by decide
  rw [List.append_assoc, List.append_assoc, List.drop_left' h8]
  rw [parseChunks_chunk IHDRtag (ihdr_data width height) _ rfl
    (by rw [ihdr_data_length]; decide)]
  rw [parseChunks_chunk IDATtag _ _ rfl hc]
  rw [← List.append_nil (png_chunk IENDtag [])]
  rw [parseChunks_chunk IENDtag [] [] rfl (by decide), parseChunks_nil]
  rfl

/-! ## Helper lemmas about the rasterizer -/

/-- Every pixel is assigned exactly one of the three constant colors. -/
theorem pixelColor_mem (size x y : ℕ) :
    pixelColor size x y = transparent ∨ pixelColor size x y = blue ∨
      pixelColor size x y = white := by
  unfold pixelColor
  split
  · split
    · right; right; rfl
    · right; left; rfl
  · left; rfl

theorem pixelColor_length (size x y : ℕ) : (pixelColor size x y).length = 4 := by
  rcases pixelColor_mem size x y with h | h | h <;> rw [h] <;> rfl

/-- One scan row of the rasterizer has `4 * size` channel values. -/
theorem pixelRow_length (size y : ℕ) :
    ((List.range size).flatMap (fun x => pixelColor size x y)).length = 4 * size := by
  rw [List.flatMap_def, List.length_flatten, List.map_map]
  have h : List.map (List.length ∘ fun x => pixelColor size x y) (List.range size) =
      List.replicate size 4 := by
    rw [List.eq_replicate_iff]
    constructor
    · simp
    · intro b hb
      simp only [List.mem_map, Function.comp] at hb
      obtain ⟨x, _, rfl⟩ := hb
      exact pixelColor_length size x y
  rw [h, List.sum_replicate, smul_eq_mul]
  omega

theorem draw_q_icon_length (size : ℕ) : (draw_q_icon size).length = 4 * size * size := by
  rw [draw_q_icon, List.flatMap_def, List.length_flatten, List.map_map]
  have h : List.map (List.length ∘ fun y => (List.range size).flatMap
      (fun x => pixelColor size x y)) (List.range size) =
      List.replicate size (4 * size) := by
    rw [List.eq_replicate_iff]
    constructor
    · simp
    · intro b hb
      simp only [List.mem_map, Function.comp] at hb
      obtain ⟨y, _, rfl⟩ := hb
      exact pixelRow_length size y
  rw [h, List.sum_replicate, smul_eq_mul]
  ring

/-- The four channel values of pixel `(x, y)` in the buffer are exactly
`pixelColor size x y`. -/
theorem draw_q_icon_pixel (size x y : ℕ) (hx : x < size) (hy : y < size) :
    ((draw_q_icon size).drop (4 * (y * size + x))).take 4 = pixelColor size x y := by
  have hform : draw_q_icon size = ((List.range size).map
      (fun y => (List.range size).flatMap (fun x => pixelColor size x y))).flatten := by
    rw [draw_q_icon, List.flatMap_def]
  have harith : 4 * (y * size + x) = 4 * size * y + 4 * x := by ring
  have huni : ∀ b ∈ (List.range size).map
      (fun y => (List.range size).flatMap (fun x => pixelColor size x y)),
      b.length = 4 * size := by
    intro b hb
    simp only [List.mem_map] at hb
    obtain ⟨y', _, rfl⟩ := hb
    exact pixelRow_length size y'
  have hylen : y < ((List.range size).map
      (fun y => (List.range size).flatMap (fun x => pixelColor size x y))).length := by
    simpa using hy
  rw [hform, harith, ← List.drop_drop, flatten_drop_uniform _ (4 * size) huni y,
    List.drop_eq_getElem_cons hylen, List.flatten_cons]
  simp only [List.getElem_map, List.getElem_range]
  have hinner : (((List.range size).flatMap (fun x => pixelColor size x y)).drop
      (4 * x)).take 4 = pixelColor size x y := by
    have huni2 : ∀ b ∈ (List.range size).map (fun x => pixelColor size x y),
        b.length = 4 := by
      intro b hb
      simp only [List.mem_map] at hb
      obtain ⟨x', _, rfl⟩ := hb
      exact pixelColor_length size x' y
    have hxlen : x < ((List.range size).map (fun x => pixelColor size x y)).length := by
      simpa using hx
    rw [List.flatMap_def, flatten_block _ 4 huni2 x hxlen]
    simp only [List.getElem_map, List.getElem_range]
  rw [List.drop_append_eq_append_drop, List.take_append_eq_append_take, hinner]
  have hlen1 : (((List.range size).flatMap (fun x => pixelColor size x y)).drop
      (4 * x)).length = 4 * size - 4 * x := by
    rw [List.length_drop, pixelRow_length]
  rw [hlen1]
  have h0 : 4 - (4 * size - 4 * x) = 0 := by omega
  rw [h0, List.take_zero, List.append_nil]

/-- Every channel value in the buffer is a byte value at most 255. -/
theorem draw_q_icon_channels (size : ℕ) : ∀ c ∈ draw_q_icon size, c ≤ 255 := by
  intro c hc
  rw [draw_q_icon] at hc
  simp only [List.mem_flatMap, List.mem_range] at hc
  obtain ⟨y, hy, x, hx, hc⟩ := hc
  rcases pixelColor_mem size x y with h | h | h <;> rw [h] at hc <;>
    simp only [transparent, blue, white, List.mem_cons, List.not_mem_nil, or_false] at hc <;>
    omega

/-! ## CRC-32 stays below 2^32 on byte input -/

theorem crcStep_lt (c : ℕ) (hc : c < 2 ^ 32) : crcStep c < 2 ^ 32 := by
  unfold crcStep
  split
  · exact Nat.xor_lt_two_pow (by omega) (by decide)
  · omega

theorem crcIter_lt (n c : ℕ) (hc : c < 2 ^ 32) : crcStep^[n] c < 2 ^ 32 := by
  induction n generalizing c with
  | zero => simpa using hc
  | succ m ih =>
      rw [Function.iterate_succ_apply]
      exact ih _ (crcStep_lt c hc)

theorem crc32_lt (data : List ℕ) (h : ∀ b ∈ data, b < 2 ^ 32) : crc32 data < 2 ^ 32 := by
  have hbyte : ∀ c b, c < 2 ^ 32 → b < 2 ^ 32 → crcByte c b < 2 ^ 32 := by
    intro c b hc hb
    exact crcIter_lt 8 _ (Nat.xor_lt_two_pow hc hb)
  have hfold : ∀ (l : List ℕ) (c : ℕ), c < 2 ^ 32 → (∀ b ∈ l, b < 2 ^ 32) →
      l.foldl crcByte c < 2 ^ 32 := by
    intro l
    induction l with
    | nil => intro c hc _; simpa using hc
    | cons a l ih =>
        intro c hc hl
        simp only [List.foldl_cons]
        exact ih _ (hbyte c a hc (hl a (List.mem_cons_self a l)))
          (fun b hb => hl b (List.mem_cons_of_mem _ hb))
  unfold crc32
  exact Nat.xor_lt_two_pow (hfold data _ (by decide) h) (by decide)

/-- On values below 2^32 the source's `& 0xffffffff` mask is the identity. -/
theorem mask32_eq (x : ℕ) (h : x < 2 ^ 32) : x &&& 0xffffffff = x := by
  have h1 : (0xffffffff : ℕ) = 2 ^ 32 - 1 := by decide
  rw [h1, Nat.and_pow_two_sub_one_eq_mod, Nat.mod_eq_of_lt h]

/-- The source's per-pixel scanline construction equals the spec's contiguous
row description, with no assumption on the buffer length. -/
theorem rawData_eq_spec (width height : ℕ) (pixels : List ℕ) :
    rawData width height pixels = rawDataSpec width height pixels := by
  unfold rawData rawDataSpec
  apply List.flatMap_congr
  intro y _
  rw [rowBytes_eq]
  have e1 : y * width * 4 = 4 * width * y := by ring
  have e2 : width * 4 = 4 * width := by ring
  rw [e1, e2]

/-- The squared inner glyph radius never exceeds the squared disk radius
(0.138·size versus 0.48·size). -/
theorem q_inner_le_circle (size : ℕ) :
    q_inner_radius size * q_inner_radius size ≤
      circle_radius size * circle_radius size := by
  unfold q_inner_radius q_outer_radius stroke_width font_size q_scale circle_radius
  nlinarith [sq_nonneg ((size : ℚ))]

/-! ## Claims -/

/-- Claim C1: for every width, height and RGBA buffer of length `4*w*h` (byte
values), decoding the byte string returned by `create_png` according to the
PNG format — inflate the IDAT payload, strip the one zero filter byte per row,
concatenate the rows — yields exactly the original buffer.  `compress` stands
for `zlib.compress(·, 9)` and `inflate` for the decoder's zlib-inflate; the
zlib contract (left inverse) is assumed at the single point of use, and the
`< 2^32` bounds mark where Python's `struct.pack('>I', ·)` is defined. -/
theorem png_decode_roundtrip (compress inflate : List ℕ → List ℕ)
    (width height : ℕ) (pixels : List ℕ)
    (hlen : pixels.length = 4 * width * height)
    (hbytes : ∀ b ∈ pixels, b < 256)
    (hw : width < 2 ^ 32) (hh : height < 2 ^ 32)
    (hc : (compress (rawData width height pixels)).length < 2 ^ 32)
    (hinv : inflate (compress (rawData width height pixels)) =
      rawData width height pixels) :
    decodePNG inflate (create_png compress width height pixels) = some pixels := by
  unfold decodePNG
  rw [create_png_take8, if_pos rfl, parseChunks_create_png compress width height pixels hc]
  show some (stripRows (readBE32 ((ihdr_data width height).take 4))
      (readBE32 (((ihdr_data width height).drop 4).take 4))
      (inflate (compress (rawData width height pixels)))) = some pixels
  have htw : ((ihdr_data width height).take 4) = packBE32 width := rfl
  have hth : (((ihdr_data width height).drop 4).take 4) = packBE32 height := rfl
  simp only [htw, hth, readBE32_packBE32 width hw, readBE32_packBE32 height hh, hinv,
    stripRows_rawData width height pixels hlen]

/-- Witness for C1 at the claim's representative case: the 16×16 rasterizer
buffer round-trips (instantiating the zlib pair with the identity). -/
theorem png_decode_roundtrip_witness :
    decodePNG id (create_png id 16 16 (draw_q_icon 16)) = some (draw_q_icon 16) := by
  apply png_decode_roundtrip id id 16 16 (draw_q_icon 16)
  · exact draw_q_icon_length 16
  · intro b hb
    have := draw_q_icon_channels 16 b hb
    omega
  · decide
  · decide
  · show (id (rawData 16 16 (draw_q_icon 16))).length < 2 ^ 32
    rw [id_eq, rawData_length, draw_q_icon_length]
    decide
  · rfl

/-- Claim C2 as stated is false: it asserts that every pixel strictly inside
the inner glyph radius is blue, but the Q tail region overlaps the inner disk.
At size 128, pixel (73, 73) has squared sampled distance 180.5, strictly below
the squared inner radius 312.016896, yet it lies on the tail and is white. -/
theorem inner_disk_blue_cex :
    ¬ (∀ size x y : ℕ, x < size → y < size →
      (circle_radius size * circle_radius size < dist_sq size x y →
        ((draw_q_icon size).drop (4 * (y * size + x))).take 4 = transparent) ∧
      (dist_sq size x y < q_inner_radius size * q_inner_radius size →
        ((draw_q_icon size).drop (4 * (y * size + x))).take 4 = blue)) := by
  intro h
  have hin : dist_sq 128 73 73 < q_inner_radius 128 * q_inner_radius 128 := by
    norm_num [dist_sq, doff, center, q_inner_radius, q_outer_radius, stroke_width,
      font_size, q_scale]
  have h2 := (h 128 73 73 (by decide) (by decide)).2 hin
  rw [draw_q_icon_pixel 128 73 73 (by decide) (by decide)] at h2
  have htail : onTail 128 73 73 := by
    refine ⟨?_, ?_, ?_, ?_⟩ <;>
      norm_num [rel, tail_start, center, q_inner_radius, q_outer_radius, stroke_width,
        font_size, q_scale, tail_length, tail_width]
  have hdisk : dist_sq 128 73 73 ≤ circle_radius 128 * circle_radius 128 := by
    norm_num [dist_sq, doff, center, circle_radius]
  have hw : pixelColor 128 73 73 = white := by
    unfold pixelColor
    rw [if_pos hdisk, if_pos (Or.inr htail)]
  rw [hw] at h2
  exact absurd h2 (by decide)

/-- Claim C2, amended: pixels with sampled distance strictly greater than the
outer circle radius are transparent (unchanged), and pixels with sampled
distance strictly less than the inner glyph radius are blue provided they are
also not in the tail region (the amendment the counterexample forces).
Distances are compared squared; both sides are nonnegative. -/
theorem outside_and_inner_colors (size x y : ℕ) (hx : x < size) (hy : y < size) :
    (circle_radius size * circle_radius size < dist_sq size x y →
      ((draw_q_icon size).drop (4 * (y * size + x))).take 4 = transparent) ∧
    (dist_sq size x y < q_inner_radius size * q_inner_radius size →
      ¬ onTail size x y →
      ((draw_q_icon size).drop (4 * (y * size + x))).take 4 = blue) := by
  rw [draw_q_icon_pixel size x y hx hy]
  constructor
  · intro hgt
    unfold pixelColor
    rw [if_neg (not_le.mpr hgt)]
  · intro hlt htail
    unfold pixelColor
    rw [if_pos (le_trans hlt.le (q_inner_le_circle size))]
    have hnot : ¬ (onRing size x y ∨ onTail size x y) := by
      rintro (hring | ht)
      · exact absurd hring.1 (not_lt.mpr hlt.le)
      · exact htail ht
    rw [if_neg hnot]

/-- Witness for the amended C2 at size 16, pixel (0, 0). -/
theorem outside_and_inner_colors_witness :
    (circle_radius 16 * circle_radius 16 < dist_sq 16 0 0 →
      ((draw_q_icon 16).drop (4 * (0 * 16 + 0))).take 4 = transparent) ∧
    (dist_sq 16 0 0 < q_inner_radius 16 * q_inner_radius 16 →
      ¬ onTail 16 0 0 →
      ((draw_q_icon 16).drop (4 * (0 * 16 + 0))).take 4 = blue) :=
  outside_and_inner_colors 16 0 0 (by decide) (by decide)

/-- Claim C3: the encoder output starts with the exact 8-byte PNG signature
and its chunk stream is exactly IHDR, IDAT, IEND in that order, with the IHDR
payload packing big-endian width, big-endian height, bit depth 8, color type
6, and zeros for compression/filter/interlace, and an empty IEND payload.
The chunk structure is recovered by the independent reader `parseChunks`. -/
theorem png_structure_chunks (compress : List ℕ → List ℕ) (width height : ℕ)
    (pixels : List ℕ)
    (hlen : pixels.length = 4 * width * height)
    (hw : width < 2 ^ 32) (hh : height < 2 ^ 32)
    (hc : (compress (rawData width height pixels)).length < 2 ^ 32) :
    (create_png compress width height pixels).take 8 =
      [0x89, 0x50, 0x4E, 0x47, 0x0D, 0x0A, 0x1A, 0x0A] ∧
    parseChunks ((create_png compress width height pixels).drop 8) =
      some [(IHDRtag, packBE32 width ++ packBE32 height ++ [8, 6, 0, 0, 0]),
        (IDATtag, compress (rawData width height pixels)),
        (IENDtag, [])] :=
  ⟨create_png_take8 compress width height pixels, by
    rw [parseChunks_create_png compress width height pixels hc]; rfl⟩

/-- Witness for C3 at width = height = 1 with a single opaque pixel, taking
the constantly-empty function for `compress`. -/
theorem png_structure_chunks_witness :
    (create_png (fun _ => []) 1 1 [9, 9, 9, 9]).take 8 =
      [0x89, 0x50, 0x4E, 0x47, 0x0D, 0x0A, 0x1A, 0x0A] ∧
    parseChunks ((create_png (fun _ => []) 1 1 [9, 9, 9, 9]).drop 8) =
      some [(IHDRtag, packBE32 1 ++ packBE32 1 ++ [8, 6, 0, 0, 0]),
        (IDATtag, (fun _ => []) (rawData 1 1 [9, 9, 9, 9])),
        (IENDtag, [])] :=
  png_structure_chunks (fun _ => []) 1 1 [9, 9, 9, 9] (by decide) (by decide)
    (by decide) (by decide)

/-- Claim C4: the single IDAT payload is `compress` (standing for zlib deflate
at maximum compression level 9) applied to the concatenation, over rows in
order, of one zero filter-type byte followed by that row's `4*width` packed
RGBA bytes taken row-major from the buffer (`rawDataSpec`, written from the
spec's words and proved equal to the source's construction). -/
theorem idat_payload_scanlines (compress : List ℕ → List ℕ) (width height : ℕ)
    (pixels : List ℕ)
    (hlen : pixels.length = 4 * width * height)
    (hc : (compress (rawData width height pixels)).length < 2 ^ 32) :
    parseChunks ((create_png compress width height pixels).drop 8) =
      some [(IHDRtag, ihdr_data width height),
        (IDATtag, compress (rawDataSpec width height pixels)),
        (IENDtag, [])] := by
  rw [parseChunks_create_png compress width height pixels hc, rawData_eq_spec]

/-- Witness for C4 at width = height = 1. -/
theorem idat_payload_scanlines_witness :
    parseChunks ((create_png (fun _ => []) 1 1 [7, 7, 7, 7]).drop 8) =
      some [(IHDRtag, ihdr_data 1 1),
        (IDATtag, (fun _ => []) (rawDataSpec 1 1 [7, 7, 7, 7])),
        (IENDtag, [])] :=
  idat_payload_scanlines (fun _ => []) 1 1 [7, 7, 7, 7] (by decide) (by decide)

/-- Claim C5: for every 4-byte chunk type tag and byte payload, `png_chunk`
produces a 4-byte big-endian length prefix equal to the payload length, then
the tag, then the payload, then a trailing 4-byte big-endian checksum equal to
the CRC-32 of tag ++ payload (the source's `& 0xffffffff` mask is the identity
on the CRC, which stays below 2^32 on byte input). -/
theorem png_chunk_layout (tag data : List ℕ) (ht : tag.length = 4)
    (hd : data.length < 2 ^ 32) (hb : ∀ b ∈ tag ++ data, b < 256) :
    (png_chunk tag data).length = 12 + data.length ∧
    (png_chunk tag data).take 4 = packBE32 data.length ∧
    readBE32 ((png_chunk tag data).take 4) = data.length ∧
    ((png_chunk tag data).drop 4).take 4 = tag ∧
    ((png_chunk tag data).drop 8).take data.length = data ∧
    (png_chunk tag data).drop (8 + data.length) = packBE32 (crc32 (tag ++ data)) ∧
    readBE32 ((png_chunk tag data).drop (8 + data.length)) = crc32 (tag ++ data) := by
  have hcrc : crc32 (tag ++ data) < 2 ^ 32 :=
    crc32_lt _ (fun b hbm => lt_trans (hb b hbm) (by norm_num))
  have hmask : crc32 (tag ++ data) &&& 0xffffffff = crc32 (tag ++ data) :=
    mask32_eq _ hcrc
  have htake : (png_chunk tag data).take 4 = packBE32 data.length := by
    rw [png_chunk_def]
    exact List.take_left' (packBE32_length data.length)
  have hdrop4 : (png_chunk tag data).drop 4 =
      tag ++ (data ++ packBE32 (crc32 (tag ++ data) &&& 0xffffffff)) := by
    rw [png_chunk_def]
    exact List.drop_left' (packBE32_length data.length)
  have hdrop8 : (png_chunk tag data).drop 8 =
      data ++ packBE32 (crc32 (tag ++ data) &&& 0xffffffff) := by
    have h8 : (8 : ℕ) = 4 + 4 := rfl
    rw [h8, ← List.drop_drop, hdrop4]
    exact List.drop_left' ht
  have hdropend : (png_chunk tag data).drop (8 + data.length) =
      packBE32 (crc32 (tag ++ data)) := by
    rw [← List.drop_drop, hdrop8, List.drop_left, hmask]
  refine ⟨png_chunk_length tag data ht, htake, ?_, ?_, ?_, hdropend, ?_⟩
  · rw [htake, readBE32_packBE32 _ hd]
  · rw [hdrop4]
    exact List.take_left' ht
  · rw [hdrop8]
    exact List.take_left data _
  · rw [hdropend, readBE32_packBE32 _ hcrc]

/-- Witness for C5 on the tag "ABCD" with payload [1, 2, 3]. -/
theorem png_chunk_layout_witness :
    (png_chunk [65, 66, 67, 68] [1, 2, 3]).length = 12 + [1, 2, 3].length ∧
    (png_chunk [65, 66, 67, 68] [1, 2, 3]).take 4 = packBE32 [1, 2, 3].length ∧
    readBE32 ((png_chunk [65, 66, 67, 68] [1, 2, 3]).take 4) = [1, 2, 3].length ∧
    ((png_chunk [65, 66, 67, 68] [1, 2, 3]).drop 4).take 4 = [65, 66, 67, 68] ∧
    ((png_chunk [65, 66, 67, 68] [1, 2, 3]).drop 8).take [1, 2, 3].length = [1, 2, 3] ∧
    (png_chunk [65, 66, 67, 68] [1, 2, 3]).drop (8 + [1, 2, 3].length) =
      packBE32 (crc32 ([65, 66, 67, 68] ++ [1, 2, 3])) ∧
    readBE32 ((png_chunk [65, 66, 67, 68] [1, 2, 3]).drop (8 + [1, 2, 3].length)) =
      crc32 ([65, 66, 67, 68] ++ [1, 2, 3]) :=
  png_chunk_layout [65, 66, 67, 68] [1, 2, 3] (by decide) (by decide) (by decide)

/-- Claim C6: for every supported size N ∈ {16, 48, 128}, `draw_q_icon N` is a
flat buffer of exactly N·N RGBA pixels, 4·N·N channel values in all, and every
channel value lies in [0, 255] (lower bound automatic over ℕ). -/
theorem draw_buffer_shape (N : ℕ) (hN : N = 16 ∨ N = 48 ∨ N = 128) :
    (draw_q_icon N).length = 4 * N * N ∧ ∀ c ∈ draw_q_icon N, c ≤ 255 :=
  ⟨draw_q_icon_length N, draw_q_icon_channels N⟩

/-- Witness for C6 at N = 16. -/
theorem draw_buffer_shape_witness :
    (draw_q_icon 16).length = 4 * 16 * 16 ∧ ∀ c ∈ draw_q_icon 16, c ≤ 255 :=
  draw_buffer_shape 16 (Or.inl rfl)

/-- Claim C7: the three colors are pairwise distinct and every pixel of
`draw_q_icon` receives exactly one of them: transparent, blue, or white —
never any other value. -/
theorem pixel_three_colors (size x y : ℕ) (hx : x < size) (hy : y < size) :
    (transparent ≠ blue ∧ blue ≠ white ∧ transparent ≠ white) ∧
    (((draw_q_icon size).drop (4 * (y * size + x))).take 4 = transparent ∨
      ((draw_q_icon size).drop (4 * (y * size + x))).take 4 = blue ∨
      ((draw_q_icon size).drop (4 * (y * size + x))).take 4 = white) := by
  refine ⟨by decide, ?_⟩
  rw [draw_q_icon_pixel size x y hx hy]
  exact pixelColor_mem size x y

/-- Witness for C7 at size 16, pixel (3, 5). -/
theorem pixel_three_colors_witness :
    (transparent ≠ blue ∧ blue ≠ white ∧ transparent ≠ white) ∧
    (((draw_q_icon 16).drop (4 * (5 * 16 + 3))).take 4 = transparent ∨
      ((draw_q_icon 16).drop (4 * (5 * 16 + 3))).take 4 = blue ∨
      ((draw_q_icon 16).drop (4 * (5 * 16 + 3))).take 4 = white) :=
  pixel_three_colors 16 3 5 (by decide) (by decide)

/-- Claim C9: in this variant, every pixel whose sampled distance from the
center exceeds the circle radius `0.48 * size` is fully transparent — RGBA
(0, 0, 0, 0) with alpha 0.  The distance comparison is squared (both sides
nonnegative): `circle_radius size = size * (48/100)` is the source's
`size * 0.48`. -/
theorem outside_circle_transparent (size x y : ℕ) (hx : x < size) (hy : y < size)
    (hdist : circle_radius size * circle_radius size < dist_sq size x y) :
    ((draw_q_icon size).drop (4 * (y * size + x))).take 4 = [0, 0, 0, 0] := by
  rw [draw_q_icon_pixel size x y hx hy]
  unfold pixelColor
  rw [if_neg (not_le.mpr hdist)]
  rfl

/-- Witness for C9 at size 16, corner pixel (0, 0). -/
theorem outside_circle_transparent_witness :
    ((draw_q_icon 16).drop (4 * (0 * 16 + 0))).take 4 = [0, 0, 0, 0] :=
  outside_circle_transparent 16 0 0 (by decide) (by decide)
    (by norm_num [dist_sq, doff, center, circle_radius])

/-- Claim C8: the no-argument generator writes exactly three files,
`icon16.png`, `icon48.png`, `icon128.png`, into the fixed relative output
directory `cmd/quaero-chrome-extension/icons` (created if absent:
`os.makedirs(..., exist_ok=True)`); for each N the bytes written are
`create_png(N, N, draw_q_icon(N))`, each file begins with the PNG signature,
and its IHDR declares width and height equal to N (the big-endian words at
byte offsets 16 and 20). -/
theorem main_writes_three_icons (compress : List ℕ → List ℕ) :
    mainWrites compress = [
      ("cmd/quaero-chrome-extension/icons/icon16.png",
        create_png compress 16 16 (draw_q_icon 16)),
      ("cmd/quaero-chrome-extension/icons/icon48.png",
        create_png compress 48 48 (draw_q_icon 48)),
      ("cmd/quaero-chrome-extension/icons/icon128.png",
        create_png compress 128 128 (draw_q_icon 128))] ∧
    (∀ f ∈ mainWrites compress, f.2.take 8 = pngSignature) ∧
    readBE32 (((create_png compress 16 16 (draw_q_icon 16)).drop 16).take 4) = 16 ∧
    readBE32 (((create_png compress 16 16 (draw_q_icon 16)).drop 20).take 4) = 16 ∧
    readBE32 (((create_png compress 48 48 (draw_q_icon 48)).drop 16).take 4) = 48 ∧
    readBE32 (((create_png compress 48 48 (draw_q_icon 48)).drop 20).take 4) = 48 ∧
    readBE32 (((create_png compress 128 128 (draw_q_icon 128)).drop 16).take 4) = 128 ∧
    readBE32 (((create_png compress 128 128 (draw_q_icon 128)).drop 20).take 4) = 128 := by
  refine ⟨rfl, ?_, rfl, rfl, rfl, rfl, rfl, rfl⟩
  intro f hf
  simp only [mainWrites, sizes, List.map_cons, List.map_nil, List.mem_cons,
    List.not_mem_nil, or_false] at hf
  rcases hf with rfl | rfl | rfl <;> exact create_png_take8 compress _ _ _

/-- Claim C10: `create_png` checks no precondition on the buffer length: on a
buffer shorter than `4*width*height` it still returns a (total) byte string —
out-of-range row slices silently yield fewer than 4 bytes — whose chunk stream
is still correctly framed (signature plus parseable IHDR/IDAT/IEND), while the
decompressed IDAT scanline data is strictly shorter than
`height * (1 + 4*width)` bytes. -/
theorem short_buffer_not_rejected (compress inflate : List ℕ → List ℕ)
    (width height : ℕ) (pixels : List ℕ)
    (hshort : pixels.length < 4 * width * height)
    (hc : (compress (rawData width height pixels)).length < 2 ^ 32)
    (hinv : inflate (compress (rawData width height pixels)) =
      rawData width height pixels) :
    (create_png compress width height pixels).take 8 = pngSignature ∧
    parseChunks ((create_png compress width height pixels).drop 8) =
      some [(IHDRtag, ihdr_data width height),
        (IDATtag, compress (rawData width height pixels)),
        (IENDtag, [])] ∧
    (inflate (compress (rawData width height pixels))).length <
      height * (1 + 4 * width) := by
  refine ⟨create_png_take8 compress width height pixels,
    parseChunks_create_png compress width height pixels hc, ?_⟩
  rw [hinv, rawData_length]
  have e : height * (1 + 4 * width) = height + 4 * width * height := by ring
  rw [e]
  omega

/-- Witness for C10 at width = height = 1 with a one-byte buffer. -/
theorem short_buffer_not_rejected_witness :
    (create_png id 1 1 [5]).take 8 = pngSignature ∧
    parseChunks ((create_png id 1 1 [5]).drop 8) =
      some [(IHDRtag, ihdr_data 1 1), (IDATtag, id (rawData 1 1 [5])),
        (IENDtag, [])] ∧
    (id (id (rawData 1 1 [5]))).length < 1 * (1 + 4 * 1) :=
  short_buffer_not_rejected id id 1 1 [5] (by decide) (by decide) rfl

/-- Witness for C8 with the constantly-empty function for `compress`. -/
theorem main_writes_three_icons_witness :
    mainWrites (fun _ => []) = [
      ("cmd/quaero-chrome-extension/icons/icon16.png",
        create_png (fun _ => []) 16 16 (draw_q_icon 16)),
      ("cmd/quaero-chrome-extension/icons/icon48.png",
        create_png (fun _ => []) 48 48 (draw_q_icon 48)),
      ("cmd/quaero-chrome-extension/icons/icon128.png",
        create_png (fun _ => []) 128 128 (draw_q_icon 128))] ∧
    (∀ f ∈ mainWrites (fun _ => []), f.2.take 8 = pngSignature) ∧
    readBE32 (((create_png (fun _ => []) 16 16 (draw_q_icon 16)).drop 16).take 4) = 16 ∧
    readBE32 (((create_png (fun _ => []) 16 16 (draw_q_icon 16)).drop 20).take 4) = 16 ∧
    readBE32 (((create_png (fun _ => []) 48 48 (draw_q_icon 48)).drop 16).take 4) = 48 ∧
    readBE32 (((create_png (fun _ => []) 48 48 (draw_q_icon 48)).drop 20).take 4) = 48 ∧
    readBE32 (((create_png (fun _ => []) 128 128 (draw_q_icon 128)).drop 16).take 4) = 128 ∧
    readBE32 (((create_png (fun _ => []) 128 128 (draw_q_icon 128)).drop 20).take 4) = 128 :=
  main_writes_three_icons (fun _ => [])
